import Mathlib

/-!
Verification of the concurrent capture / recognition / enhancement pipeline of
the voice transcriber (`src/app.py`, class `ProfessionalVoiceTranscriber`).

The pure text heuristics (`_needs_llm_correction`, `_missing_prepositions`,
`_analyze_changes`, `_is_improvement_worthwhile`, `_enhance_with_llm`) are
embedded as Lean functions over `String`.  Python `str.split()`, `str.strip()`,
`str.lower()` and `str.isdigit()` are modelled on the character lists of the
strings; Python float comparisons against the literals `0.5` and `0.6` are
modelled as exact rational comparisons (equivalent for all realistic text
lengths, far below 2^50 characters).  The queue-facing behaviour of the audio
callback, the LLM worker thread and the start/stop commands is embedded as
pure functions on explicit state, and the cross-thread enqueue interleavings
as a small-step relation.
-/

namespace VoiceApp

/-- Whitespace tokenizer: model of Python `str.split()` (split on whitespace
runs, dropping empty tokens), processing the character list with an
accumulator of the current word spelled backwards. -/
def splitWsAux : List Char → List Char → List String
  | [], acc => if acc.isEmpty then [] else [String.mk acc.reverse]
  | c :: rest, acc =>
    if c.isWhitespace then
      if acc.isEmpty then splitWsAux rest []
      else String.mk acc.reverse :: splitWsAux rest []
    else splitWsAux rest (c :: acc)

/-- Model of Python `text.split()`. -/
def pySplit (s : String) : List String := splitWsAux s.data []

/-- Model of Python `str.strip()`: drop whitespace from both ends. -/
def pyStrip (s : String) : String :=
  String.mk (((s.data.dropWhile Char.isWhitespace).reverse.dropWhile
    Char.isWhitespace).reverse)

/-- Lower-casing of one character, covering the alphabets the program works
with: ASCII `A`-`Z` and Cyrillic `А`-`Я` map down by 32 code points, `Ё` maps
to `ё`; every other character is unchanged (model of Python `str.lower()` on
the Latin/Cyrillic inputs of this application). -/
def charLower (c : Char) : Char :=
  if 'A' ≤ c ∧ c ≤ 'Z' then Char.ofNat (c.toNat + 32)
  else if 'А' ≤ c ∧ c ≤ 'Я' then Char.ofNat (c.toNat + 32)
  else if c = 'Ё' then 'ё'
  else c

/-- Model of Python `str.lower()`. -/
def pyLower (s : String) : String := String.mk (s.data.map charLower)

/-- Model of Python `str.isdigit()` for the decimal digits that occur in
recognized speech: non-empty and all characters in `0`-`9`. -/
def pyIsDigit (w : String) : Bool :=
  !w.data.isEmpty && w.data.all Char.isDigit

/-- Boolean prefix test on character lists. -/
def isPrefixList : List Char → List Char → Bool
  | [], _ => true
  | _ :: _, [] => false
  | p :: ps, c :: cs => (p == c) && isPrefixList ps cs

/-- Whether `pat` occurs as a contiguous sublist of `s`. -/
def containsSubAux (pat : List Char) : List Char → Bool
  | [] => isPrefixList pat []
  | c :: cs => isPrefixList pat (c :: cs) || containsSubAux pat cs

/-- Model of Python `pat in s` (substring containment). -/
def containsSub (s pat : String) : Bool := containsSubAux pat.data s.data

/-- Whether the text contains any of the given punctuation characters:
model of Python `any(punct in text for punct in chars)`. -/
def hasAnyChar (s : String) (cs : List Char) : Bool :=
  cs.any (fun c => s.data.contains c)

/-- `common_verbs` of `_missing_prepositions` (src/app.py line 440). -/
def common_verbs : List String := ["пошел", "пришел", "ушел", "вернулся", "зашел"]

/-- `following_nouns` of `_missing_prepositions` (src/app.py line 441). -/
def following_nouns : List String := ["магазин", "дом", "работа", "улица", "парк"]

/-- Scan of adjacent word pairs: verb from the fixed list immediately followed
by a noun from the fixed list (the loop of `_missing_prepositions`). -/
def missingPrepAux : List String → Bool
  | w :: w' :: rest =>
    (common_verbs.contains w && following_nouns.contains w')
      || missingPrepAux (w' :: rest)
  | _ => false

/-- `_missing_prepositions` (src/app.py lines 431-446). -/
def missingPrepositions (text : String) : Bool :=
  missingPrepAux (pySplit text)

/-- The run-together patterns of `_needs_llm_correction` (src/app.py line 422). -/
def runTogether : List String :=
  ["какдела", "чтоты", "чтобы", "зачемты", "потомучто"]

/-- `_needs_llm_correction` (src/app.py lines 391-429): the Enhancement Gate. -/
def needsLlmCorrection (text : String) : Bool :=
  let words := pySplit text
  if words.length < 3 then false
  else if hasAnyChar text ['.', '!', '?'] && words.length < 6 then false
  else
    (decide (4 ≤ words.length) && !hasAnyChar text ['.', '!', '?', ',', ':'])
      || words.any pyIsDigit
      || runTogether.any (fun pat => containsSub (pyLower text) pat)
      || missingPrepositions text

/-- The punctuation class `[.,!?;:]` of `_analyze_changes` (src/app.py line 521). -/
def punctClass : List Char := ['.', ',', '!', '?', ';', ':']

/-- The preposition list of `_analyze_changes` (src/app.py line 528). -/
def prepositions : List String := ["в", "на", "за", "под", "о", "у", "с", "по"]

/-- `_analyze_changes` (src/app.py lines 501-534): classify what the LLM
changed.  `set(findall) - set(findall)` nonempty is modelled as: some
punctuation character of the result does not occur in the original. -/
def analyzeChanges (original enhanced : String) : List String :=
  if original = enhanced then []
  else
    let origWords := pySplit original
    let enhWords := pySplit enhanced
    let structural : List String :=
      if origWords.length ≠ enhWords.length then ["структура предложения"] else []
    let origPunct := original.data.filter (fun c => punctClass.contains c)
    let enhPunct := enhanced.data.filter (fun c => punctClass.contains c)
    let punctuation : List String :=
      if enhPunct.any (fun c => !origPunct.contains c) then ["пунктуация"] else []
    let origPrep := (origWords.filter (fun w => prepositions.contains w)).length
    let enhPrep := (enhWords.filter (fun w => prepositions.contains w)).length
    let preps : List String := if origPrep < enhPrep then ["предлоги"] else []
    structural ++ punctuation ++ preps

/-- The distinct lower-cased words of a text: model of Python
`set(s.lower().split())`. -/
def distinctWords (s : String) : List String := (pySplit (pyLower s)).dedup

/-- Size of `set(original.lower().split()) ∩ set(enhanced.lower().split())`. -/
def overlapCount (o e : String) : Nat :=
  ((distinctWords o).filter (fun w => (distinctWords e).contains w)).length

/-- `_is_improvement_worthwhile` (src/app.py lines 536-561): the Acceptance
Heuristic.  `abs(len(e)-len(o))/max(len(o),1) > 0.5` is the exact rational
test `2*|len e - len o| > max (len o) 1`, and
`common/max(|origWords|,1) < 0.6` is `5*common < 3*max (|origWords|) 1`. -/
def isImprovementWorthwhile (original enhanced : String)
    (changes : List String) : Bool :=
  if changes.isEmpty then false
  else if max original.length 1
      < 2 * ((enhanced.length : Int) - (original.length : Int)).natAbs then false
  else if 5 * overlapCount original enhanced
      < 3 * max (distinctWords original).length 1 then false
  else true

/-- `_enhance_with_llm` (src/app.py lines 448-499).  The tokenizer/generate/
decode pipeline is the external enhancement service, abstracted as an
`Except Unit String`: `.error` is any exception raised inside the `try` block
(caught by the `except Exception` clause), `.ok decoded` is the decoded model
output before the final `.strip()`. -/
def enhanceWithLLM (text : String) (service : Except Unit String) :
    String × List String :=
  if pyStrip text = "" then (text, [])
  else
    match service with
    | Except.error _ => (text, [])
    | Except.ok decoded =>
      let result := pyStrip decoded
      let changes := analyzeChanges text result
      if isImprovementWorthwhile text result changes then (result, changes)
      else (text, [])

/-- An element of `text_queue`: the `(text_type, text, metadata)` tuples the
producers enqueue (src/app.py lines 643-664, 701-704, 718-720).  `metadata`
carries only the `changes` list and only for `enhanced` events. -/
inductive QEvent where
  | raw (text : String)
  | enhanced (text : String) (changes : List String)
  | llmProcessing
  | interim (text : String)
  deriving DecidableEq

/-- `_process_with_llm` (src/app.py lines 691-704): the enhancement worker.
It always enqueues exactly one `enhanced` event; the outer `except` clause
would also enqueue `(enhanced, text, [])`, the same value `_enhance_with_llm`
already returns on its own (internally caught) failure. -/
def processWithLLM (text : String) (service : Except Unit String) :
    List QEvent :=
  let res := enhanceWithLLM text service
  [QEvent.enhanced res.1 res.2]

/-- The final-result branch of the audio callback (src/app.py lines 637-657):
given the stripped recognized text, the events the callback enqueues on
`text_queue` and the text handed to a spawned LLM worker thread, if any. -/
def audioCallbackFinal (useLlm : Bool) (text : String) :
    List QEvent × Option String :=
  if text = "" then ([], none)
  else if useLlm && needsLlmCorrection text then
    ([QEvent.raw text, QEvent.llmProcessing], some text)
  else
    ([QEvent.raw text, QEvent.enhanced text []], none)

/-- What one block of audio produces inside the callback's `try` body
(src/app.py lines 633-668): a finalized utterance (`AcceptWaveform` true,
with the stripped `text` field), an interim hypothesis, or an exception
raised anywhere in the block. -/
inductive FeedOutcome where
  | finalText (text : String)
  | interimText (text : String)
  | feedError
  deriving DecidableEq

/-- The externally visible outcome of one audio-callback invocation. -/
structure CallbackResult where
  /-- puts on `text_queue` -/
  textEvents : List QEvent
  /-- puts on `status_queue` (the callback never puts there) -/
  statusEvents : List String
  /-- value of `stop_event` after the invocation -/
  stopEventSet : Bool
  /-- `sd.CallbackStop` raised (the sanctioned stream-stop signal) -/
  raisedCallbackStop : Bool
  /-- text handed to a spawned `_process_with_llm` thread -/
  spawned : Option String
  /-- `logging.error` was called -/
  loggedError : Bool
  deriving DecidableEq

/-- `audio_callback` (src/app.py lines 617-668).  The cooperative stop check
comes first; the whole feed/recognize/enqueue body is wrapped in
`try/except Exception`, whose handler only logs and sets `stop_event`. -/
def audioCallback (stopEventBefore useLlm : Bool) (feed : FeedOutcome) :
    CallbackResult :=
  if stopEventBefore then
    ⟨[], [], true, true, none, false⟩
  else
    match feed with
    | FeedOutcome.feedError =>
      ⟨[], [], true, false, none, true⟩
    | FeedOutcome.finalText t =>
      ⟨(audioCallbackFinal useLlm t).1, [], false, false,
        (audioCallbackFinal useLlm t).2, false⟩
    | FeedOutcome.interimText t =>
      ⟨if t = "" then [] else [QEvent.interim t], [], false, false,
        none, false⟩

/-- The mutable fields of `ProfessionalVoiceTranscriber` touched by
`start_recording` / `stop_recording` / `_finalize_recording`, plus transition
counters: `startedCount` counts Idle-to-Recording transitions (worker-thread
spawns), `stoppedCount` counts finalizations (`RecordingStopped`). -/
structure AppState where
  modelsLoaded : Bool
  isRecording : Bool
  stopEventFlag : Bool
  recordBtnEnabled : Bool
  recordBtnText : String
  statusText : String
  startedCount : Nat
  stoppedCount : Nat
  deriving DecidableEq

/-- `start_recording` (src/app.py lines 579-603).  Under `recording_lock` the
check of `is_recording` and its update are one atomic step, which this
sequential function reflects; when models are not loaded only an error dialog
is shown and no state changes. -/
def start_recording (s : AppState) : AppState :=
  if !s.modelsLoaded then s
  else if s.isRecording then s
  else
    { s with
      isRecording := true
      stopEventFlag := false
      recordBtnText := "⏹️ Остановить запись"
      statusText := "🎤 Запись... Говорите!"
      startedCount := s.startedCount + 1 }

/-- `stop_recording` (src/app.py lines 741-753).  It does not clear
`is_recording` (that happens in `_finalize_recording` on the worker thread);
it only sets the stop signal and updates the button/status. -/
def stop_recording (s : AppState) : AppState :=
  if !s.isRecording then s
  else
    { s with
      stopEventFlag := true
      recordBtnEnabled := false
      statusText := "🔄 Безопасная остановка..." }

/-- `_finalize_recording` (src/app.py lines 706-726): enqueue the trailing
`FinalResult` text (as an `enhanced` event) when non-empty, clear
`is_recording` under the lock, and schedule the stopped-UI update (counted by
`stoppedCount`). -/
def finalize_recording (s : AppState) (finalText : String) :
    AppState × List QEvent :=
  ({ s with
      isRecording := false
      stoppedCount := s.stoppedCount + 1 },
   if finalText = "" then [] else [QEvent.enhanced finalText []])

/-- Events of the cross-thread queue protocol, abstracted per utterance:
utterances are named by an abstract identifier `sid` (the spec's
`sequence_id`); the correlation in the code is by position, modelled here by
the identifier of the finalized utterance a put belongs to. -/
inductive PEvent where
  | raw (sid : Nat)
  | enhanced (sid : Nat)
  | llmProcessing
  deriving DecidableEq

/-- State of the enqueue protocol: the queue contents and, per context, the
utterances whose remaining puts are still outstanding.  `toSpawn`: the
callback has put `raw` but not yet put `llm_processing`/spawned the worker;
`inlineDup`: the callback has put `raw` and will itself put the duplicate
`enhanced` (gate rejected or LLM disabled); `pending`: a spawned worker that
has not yet put its `enhanced`; `emitted`: utterances already finalized. -/
structure PipeState where
  queue : List PEvent
  toSpawn : List Nat
  inlineDup : List Nat
  pending : List Nat
  emitted : List Nat
  deriving DecidableEq

/-- The initial protocol state: empty queue, nothing outstanding. -/
def initPipe : PipeState := ⟨[], [], [], [], []⟩

/-- One enqueue step of some context.  The audio callback runs `finalGate`
(put `raw`, gate passed) then later `spawnWorker` (put `llm_processing`,
start the thread), or `finalNoGate` (put `raw`) then later `inlineEnhanced`
(put the duplicate `enhanced`); a worker thread runs `workerDone` (put its
single `enhanced`).  Splitting each callback body into micro-steps
over-approximates the interleavings of the sequential callback with the
concurrently completing workers, so the ordering theorem covers them all. -/
inductive PStep : PipeState → PipeState → Prop where
  | finalGate (s : PipeState) (sid : Nat) (h : sid ∉ s.emitted) :
      PStep s ⟨s.queue ++ [PEvent.raw sid], sid :: s.toSpawn, s.inlineDup,
        s.pending, sid :: s.emitted⟩
  | finalNoGate (s : PipeState) (sid : Nat) (h : sid ∉ s.emitted) :
      PStep s ⟨s.queue ++ [PEvent.raw sid], s.toSpawn, sid :: s.inlineDup,
        s.pending, sid :: s.emitted⟩
  | spawnWorker (s : PipeState) (sid : Nat) (h : sid ∈ s.toSpawn) :
      PStep s ⟨s.queue ++ [PEvent.llmProcessing], s.toSpawn.erase sid,
        s.inlineDup, sid :: s.pending, s.emitted⟩
  | inlineEnhanced (s : PipeState) (sid : Nat) (h : sid ∈ s.inlineDup) :
      PStep s ⟨s.queue ++ [PEvent.enhanced sid], s.toSpawn,
        s.inlineDup.erase sid, s.pending, s.emitted⟩
  | workerDone (s : PipeState) (sid : Nat) (h : sid ∈ s.pending) :
      PStep s ⟨s.queue ++ [PEvent.enhanced sid], s.toSpawn, s.inlineDup,
        s.pending.erase sid, s.emitted⟩

/-- Reachability of a protocol state from the initial state. -/
inductive PReach : PipeState → Prop where
  | init : PReach initPipe
  | step {s t : PipeState} : PReach s → PStep s t → PReach t

/-- Every occurrence of `enhanced sid` in the queue has an occurrence of
`raw sid` strictly earlier. -/
def RawBeforeEnhanced (q : List PEvent) : Prop :=
  ∀ (sid : Nat) (j : Nat), q[j]? = some (PEvent.enhanced sid) →
    ∃ i : Nat, i < j ∧ q[i]? = some (PEvent.raw sid)

/-- Inductive invariant of the enqueue protocol: the queue satisfies the
ordering property, and every utterance with an outstanding `enhanced` put
(in any of the three contexts) already has its `raw` event in the queue. -/
def PipeInv (s : PipeState) : Prop :=
  RawBeforeEnhanced s.queue ∧
  (∀ sid, sid ∈ s.toSpawn → PEvent.raw sid ∈ s.queue) ∧
  (∀ sid, sid ∈ s.inlineDup → PEvent.raw sid ∈ s.queue) ∧
  (∀ sid, sid ∈ s.pending → PEvent.raw sid ∈ s.queue)

/-- Number of `enhanced`-tagged events in a `text_queue` event list. -/
def countEnhanced (evs : List QEvent) : Nat :=
  (evs.filter (fun e => match e with
    | QEvent.enhanced _ _ => true
    | _ => false)).length

/-- C7: for every input text whose whitespace tokenization has fewer than 3
words, the Enhancement Gate `_needs_llm_correction` returns false. -/
theorem gate_rejects_short_text (t : String)
    (h : (pySplit t).length < 3) : needsLlmCorrection t = false := by
  simp [needsLlmCorrection, h]

/-- Witness for C7 at the two-word text `привет мир`. -/
theorem gate_rejects_short_text_witness :
    (pySplit "привет мир").length < 3 ∧
      needsLlmCorrection "привет мир" = false :=
  ⟨by decide, gate_rejects_short_text "привет мир" (by decide)⟩

/-- C8: every text with at least 4 whitespace-separated words containing none
of the characters `.` `!` `?` `,` `:` passes the Enhancement Gate. -/
theorem gate_accepts_long_unpunctuated (t : String)
    (h4 : 4 ≤ (pySplit t).length)
    (hp : hasAnyChar t ['.', '!', '?', ',', ':'] = false) :
    needsLlmCorrection t = true := by
  have h3 : ¬ (pySplit t).length < 3 := by omega
  have hp3 : hasAnyChar t ['.', '!', '?'] = false := by
    simp only [hasAnyChar, List.any_eq_false, List.mem_cons] at hp ⊢
    intro c hc
    rcases hc with h | h | h | h
    · exact hp c (by simp [h])
    · exact hp c (by simp [h])
    · exact hp c (by simp [h])
    · simp at h
  simp [needsLlmCorrection, h3, hp3, hp, h4]

/-- Witness for C8: the spec's Scenario A text, 4 words, no punctuation. -/
theorem gate_accepts_long_unpunctuated_witness :
    4 ≤ (pySplit "привет как дела сегодня").length ∧
      hasAnyChar "привет как дела сегодня" ['.', '!', '?', ',', ':'] = false ∧
      needsLlmCorrection "привет как дела сегодня" = true :=
  ⟨by decide, by decide,
    gate_accepts_long_unpunctuated "привет как дела сегодня"
      (by decide) (by decide)⟩

/-- C4: on any failure of the enhancement service call, the worker publishes
exactly one `enhanced` event carrying the original text with an empty changes
list — never an error. -/
theorem enhancement_failure_publishes_noop (t : String) :
    processWithLLM t (Except.error ()) = [QEvent.enhanced t []] := by
  unfold processWithLLM enhanceWithLLM
  by_cases h : pyStrip t = "" <;> simp [h]

/-- C6: diffing a text against an identical enhancement yields an empty
changes list, the Acceptance Heuristic then rejects, and the worker falls
back to the original text. -/
theorem identity_enhancement_rejected (t : String) :
    analyzeChanges t t = [] ∧
      isImprovementWorthwhile t t (analyzeChanges t t) = false ∧
      (pyStrip t = t → enhanceWithLLM t (Except.ok t) = (t, [])) := by
  have h1 : analyzeChanges t t = [] := by simp [analyzeChanges]
  refine ⟨h1, ?_, ?_⟩
  · rw [h1]
    simp [isImprovementWorthwhile]
  · intro hs
    unfold enhanceWithLLM
    by_cases he : pyStrip t = ""
    · simp [he]
    · rw [if_neg he]
      simp [hs, h1, isImprovementWorthwhile]

/-- Witness for C6 at the text `тест` (already stripped). -/
theorem identity_enhancement_rejected_witness :
    analyzeChanges "тест" "тест" = [] ∧
      isImprovementWorthwhile "тест" "тест" (analyzeChanges "тест" "тест") = false ∧
      enhanceWithLLM "тест" (Except.ok "тест") = ("тест", []) :=
  ⟨(identity_enhancement_rejected "тест").1,
    (identity_enhancement_rejected "тест").2.1,
    (identity_enhancement_rejected "тест").2.2 (by decide)⟩

/-- C5: `start_recording` while a recording is in progress is a no-op, two
rapid starts coincide with one start, and from the idle state exactly one
Idle-to-Recording transition (one worker spawn) happens. -/
theorem start_recording_single_transition (s : AppState)
    (hm : s.modelsLoaded = true) :
    (s.isRecording = true → start_recording s = s) ∧
    start_recording (start_recording s) = start_recording s ∧
    (s.isRecording = false →
      (start_recording s).startedCount = s.startedCount + 1 ∧
      (start_recording s).isRecording = true ∧
      (start_recording (start_recording s)).startedCount = s.startedCount + 1) := by
  by_cases hr : s.isRecording <;> simp [start_recording, hm, hr]

/-- Witness for C5 at a concrete idle, models-loaded state. -/
theorem start_recording_single_transition_witness :
    (AppState.mk true false false true "🎤 Начать запись" "" 0 0).modelsLoaded = true ∧
    (start_recording (start_recording
        (AppState.mk true false false true "🎤 Начать запись" "" 0 0))).startedCount = 1 :=
  ⟨rfl,
    ((start_recording_single_transition
        (AppState.mk true false false true "🎤 Начать запись" "" 0 0) rfl).2.2 rfl).2.2⟩

/-- C9: `stop_recording` twice has the same observable effect as once, it is
a no-op while no recording is in progress, and it performs no
Idle/Recording transition of its own (finalization is counted elsewhere,
exactly once, by the worker's `_finalize_recording`). -/
theorem stop_recording_idempotent (s : AppState) :
    stop_recording (stop_recording s) = stop_recording s ∧
    (s.isRecording = false → stop_recording s = s) ∧
    (stop_recording s).stoppedCount = s.stoppedCount ∧
    (stop_recording s).startedCount = s.startedCount := by
  by_cases hr : s.isRecording <;> simp [stop_recording, hr]

/-- Witness for C9 at a concrete recording state. -/
theorem stop_recording_idempotent_witness :
    stop_recording (stop_recording
        (AppState.mk true true false true "⏹️ Остановить запись" "" 1 0)) =
      stop_recording (AppState.mk true true false true "⏹️ Остановить запись" "" 1 0) ∧
    stop_recording (AppState.mk true false false true "" "" 0 0) =
      AppState.mk true false false true "" "" 0 0 :=
  ⟨(stop_recording_idempotent
      (AppState.mk true true false true "⏹️ Остановить запись" "" 1 0)).1,
    (stop_recording_idempotent
      (AppState.mk true false false true "" "" 0 0)).2.1 rfl⟩

/-- C10: for every finalized non-empty utterance the callback enqueues `raw`
and, when the gate rejects or the LLM is disabled, itself enqueues the
duplicate `enhanced` event with identical text and empty changes; counting
the worker's output, exactly one `enhanced` event arises per utterance
regardless of the gate decision. -/
theorem finalized_utterance_single_enhanced (useLlm : Bool) (t : String)
    (svc : Except Unit String) (h : t ≠ "") :
    ((useLlm && needsLlmCorrection t) = false →
      (audioCallbackFinal useLlm t).1 = [QEvent.raw t, QEvent.enhanced t []]) ∧
    QEvent.raw t ∈ (audioCallbackFinal useLlm t).1 ∧
    countEnhanced ((audioCallbackFinal useLlm t).1 ++
      (audioCallbackFinal useLlm t).2.elim [] (fun u => processWithLLM u svc)) = 1 := by
  unfold audioCallbackFinal
  by_cases hg : (useLlm && needsLlmCorrection t) = true
  · simp [h, hg, countEnhanced, processWithLLM]
  · simp [h, hg, countEnhanced]

/-- Witness for C10: gate-rejecting short text with the LLM enabled. -/
theorem finalized_utterance_single_enhanced_witness :
    ("да" : String) ≠ "" ∧
      (audioCallbackFinal true "да").1 = [QEvent.raw "да", QEvent.enhanced "да" []] :=
  ⟨by decide,
    (finalized_utterance_single_enhanced true "да" (Except.error ())
      (by decide)).1 (by decide)⟩

/-- C3 counterexample: the claim says that on a feed error the callback
"marks an Error event"; at the concrete failing invocation (stop signal
clear, LLM enabled, feed raising) the callback enqueues nothing at all — no
event on `text_queue` and no status on `status_queue` — while it does set the
stop signal. -/
theorem feed_error_no_error_event :
    (audioCallback false true FeedOutcome.feedError).textEvents = [] ∧
    (audioCallback false true FeedOutcome.feedError).statusEvents = [] ∧
    (audioCallback false true FeedOutcome.feedError).stopEventSet = true :=
  ⟨rfl, rfl, rfl⟩

/-- C3 (amended): if feeding the recognizer fails, the audio callback logs
the error and raises the cooperative stop signal, the session is not retried
(no events, no worker spawn), and no exception escapes the callback uncaught
— but no Error event is marked on either queue; the failure is visible only
in the log. -/
theorem feed_error_cooperative_stop (u : Bool) :
    audioCallback false u FeedOutcome.feedError =
      ⟨[], [], true, false, none, true⟩ := rfl

/-- The Acceptance Heuristic in exact integer form: given at least one
character and at least one distinct word in the original, it accepts exactly
when the changes list is non-empty, twice the absolute length difference is
at most the original length, and five times the overlap count is at least
three times the number of distinct original words. -/
theorem worthwhile_eq_true_iff (o e : String) (c : List String)
    (h1 : 1 ≤ o.length) (h2 : distinctWords o ≠ []) :
    isImprovementWorthwhile o e c = true ↔
      (c ≠ [] ∧ 2 * ((e.length : Int) - (o.length : Int)).natAbs ≤ o.length ∧
        3 * (distinctWords o).length ≤ 5 * overlapCount o e) := by
  have hw : 1 ≤ (distinctWords o).length := List.length_pos.mpr h2
  unfold isImprovementWorthwhile
  rw [Nat.max_eq_left h1, Nat.max_eq_left hw]
  split_ifs with hc hlen hov
  · simp only [Bool.false_eq_true, false_iff]
    rintro ⟨hne, -, -⟩
    exact hne (List.isEmpty_iff.mp hc)
  · simp only [Bool.false_eq_true, false_iff]
    rintro ⟨-, hle, -⟩
    omega
  · simp only [Bool.false_eq_true, false_iff]
    rintro ⟨-, -, hge⟩
    omega
  · simp only [true_iff]
    refine ⟨fun he => hc (by simp [he]), by omega, by omega⟩

/-- C1: the Acceptance Heuristic accepts exactly when all three spec
conditions hold — non-empty changes, relative length change at most `1/2`,
and word-overlap ratio at least `3/5` (the code divides by
`max(len(original),1)` and `max(|words|,1)`, equal to the spec's denominators
whenever the original is non-empty); and on the spec's Scenario D the
enhancement of `тест` is rejected and the original text retained with empty
changes. -/
theorem acceptance_characterization (o e : String) (c : List String)
    (h1 : 1 ≤ o.length) (h2 : distinctWords o ≠ []) :
    (isImprovementWorthwhile o e c = true ↔
      (c ≠ [] ∧
        |(e.length : ℚ) - (o.length : ℚ)| / (o.length : ℚ) ≤ 1 / 2 ∧
        3 / 5 ≤ (overlapCount o e : ℚ) / ((distinctWords o).length : ℚ))) ∧
    enhanceWithLLM "тест" (Except.ok "совершенно другое предложение длиннее") =
      ("тест", []) := by
  constructor
  · rw [worthwhile_eq_true_iff o e c h1 h2]
    have ho : (0 : ℚ) < (o.length : ℚ) := by exact_mod_cast h1
    have hw : (0 : ℚ) < ((distinctWords o).length : ℚ) := by
      exact_mod_cast List.length_pos.mpr h2
    have habs : (((e.length : Int) - (o.length : Int)).natAbs : ℚ) =
        |(e.length : ℚ) - (o.length : ℚ)| := by
      rw [Int.cast_natAbs]
      push_cast
      ring_nf
    constructor
    · rintro ⟨hne, hlen, hov⟩
      refine ⟨hne, ?_, ?_⟩
      · rw [div_le_div_iff₀ ho (by norm_num), ← habs]
        have : ((2 * ((e.length : Int) - (o.length : Int)).natAbs : ℕ) : ℚ) ≤
            ((o.length : ℕ) : ℚ) := by exact_mod_cast hlen
        push_cast at this ⊢
        linarith
      · rw [div_le_div_iff₀ (by norm_num) hw]
        have : ((3 * (distinctWords o).length : ℕ) : ℚ) ≤
            ((5 * overlapCount o e : ℕ) : ℚ) := by exact_mod_cast hov
        push_cast at this ⊢
        linarith
    · rintro ⟨hne, hlen, hov⟩
      refine ⟨hne, ?_, ?_⟩
      · rw [div_le_div_iff₀ ho (by norm_num), ← habs] at hlen
        have : ((2 * ((e.length : Int) - (o.length : Int)).natAbs : ℕ) : ℚ) ≤
            ((o.length : ℕ) : ℚ) := by push_cast; linarith
        exact_mod_cast this
      · rw [div_le_div_iff₀ (by norm_num) hw] at hov
        have : ((3 * (distinctWords o).length : ℕ) : ℚ) ≤
            ((5 * overlapCount o e : ℕ) : ℚ) := by push_cast; linarith
        exact_mod_cast this
  · decide

/-- Witness for C1: the spec's Scenario C inputs — `пошел магазин` enhanced
to `пошел в магазин` with both detected change tags — are accepted, via the
right-to-left direction at concrete values; the hypotheses and the spec-side
conditions are discharged by computation. -/
theorem acceptance_characterization_witness :
    1 ≤ ("пошел магазин" : String).length ∧
    distinctWords "пошел магазин" ≠ [] ∧
    isImprovementWorthwhile "пошел магазин" "пошел в магазин"
      ["структура предложения", "предлоги"] = true :=
  ⟨by decide, by decide,
    ((acceptance_characterization "пошел магазин" "пошел в магазин"
        ["структура предложения", "предлоги"] (by decide) (by decide)).1).mpr
      (by
        have hl1 : ("пошел в магазин" : String).length = 15 := rfl
        have hl2 : ("пошел магазин" : String).length = 13 := rfl
        have ho : overlapCount "пошел магазин" "пошел в магазин" = 2 := rfl
        have hd : (distinctWords "пошел магазин").length = 2 := rfl
        refine ⟨by decide, ?_, ?_⟩
        · rw [hl1, hl2]
          rw [show |(((15 : ℕ) : ℚ)) - (((13 : ℕ) : ℚ))| = 2 by push_cast; norm_num]
          push_cast
          norm_num
        · rw [ho, hd]
          push_cast
          norm_num)⟩

/-- Appending an event that is not an `enhanced` event preserves the
raw-before-enhanced ordering of the queue. -/
theorem rawBeforeEnhanced_append_other (q : List PEvent) (x : PEvent)
    (hx : ∀ sid, x ≠ PEvent.enhanced sid)
    (hq : RawBeforeEnhanced q) : RawBeforeEnhanced (q ++ [x]) := by
  intro sid j hj
  by_cases hlt : j < q.length
  · rw [List.getElem?_append_left hlt] at hj
    obtain ⟨i, hij, hi⟩ := hq sid j hj
    exact ⟨i, hij, by rw [List.getElem?_append_left (lt_trans hij hlt)]; exact hi⟩
  · push_neg at hlt
    rw [List.getElem?_append_right hlt] at hj
    cases hd : j - q.length with
    | zero =>
      rw [hd] at hj
      simp only [List.getElem?_cons_zero, Option.some.injEq] at hj
      exact absurd hj (hx sid)
    | succ n =>
      rw [hd] at hj
      simp at hj

/-- Appending `enhanced sid` preserves the ordering when `raw sid` is
already somewhere in the queue. -/
theorem rawBeforeEnhanced_append_enhanced (q : List PEvent) (sid : Nat)
    (hmem : PEvent.raw sid ∈ q) (hq : RawBeforeEnhanced q) :
    RawBeforeEnhanced (q ++ [PEvent.enhanced sid]) := by
  intro sid' j hj
  by_cases hlt : j < q.length
  · rw [List.getElem?_append_left hlt] at hj
    obtain ⟨i, hij, hi⟩ := hq sid' j hj
    exact ⟨i, hij, by rw [List.getElem?_append_left (lt_trans hij hlt)]; exact hi⟩
  · push_neg at hlt
    rw [List.getElem?_append_right hlt] at hj
    cases hd : j - q.length with
    | zero =>
      rw [hd] at hj
      simp only [List.getElem?_cons_zero, Option.some.injEq,
        PEvent.enhanced.injEq] at hj
      obtain ⟨i, hi⟩ := List.mem_iff_getElem?.mp hmem
      have hil : i < q.length := (List.getElem?_eq_some.mp hi).1
      refine ⟨i, by omega, ?_⟩
      rw [List.getElem?_append_left hil, hi, hj]
    | succ n =>
      rw [hd] at hj
      simp at hj

/-- Every enqueue step of the protocol preserves the inductive invariant. -/
theorem pipeInv_step {s t : PipeState} (hs : PipeInv s) (st : PStep s t) :
    PipeInv t := by
  obtain ⟨hrbe, hspawn, hinline, hpend⟩ := hs
  cases st with
  | finalGate sid h =>
    refine ⟨rawBeforeEnhanced_append_other _ _ (fun sid' => by simp) hrbe,
      ?_, ?_, ?_⟩
    · intro sid' h'
      rcases List.mem_cons.mp h' with h' | h'
      · subst h'
        exact List.mem_append_right _ (List.mem_singleton_self _)
      · exact List.mem_append_left _ (hspawn _ h')
    · intro sid' h'
      exact List.mem_append_left _ (hinline _ h')
    · intro sid' h'
      exact List.mem_append_left _ (hpend _ h')
  | finalNoGate sid h =>
    refine ⟨rawBeforeEnhanced_append_other _ _ (fun sid' => by simp) hrbe,
      ?_, ?_, ?_⟩
    · intro sid' h'
      exact List.mem_append_left _ (hspawn _ h')
    · intro sid' h'
      rcases List.mem_cons.mp h' with h' | h'
      · subst h'
        exact List.mem_append_right _ (List.mem_singleton_self _)
      · exact List.mem_append_left _ (hinline _ h')
    · intro sid' h'
      exact List.mem_append_left _ (hpend _ h')
  | spawnWorker sid h =>
    refine ⟨rawBeforeEnhanced_append_other _ _ (fun sid' => by simp) hrbe,
      ?_, ?_, ?_⟩
    · intro sid' h'
      exact List.mem_append_left _ (hspawn _ (List.mem_of_mem_erase h'))
    · intro sid' h'
      exact List.mem_append_left _ (hinline _ h')
    · intro sid' h'
      rcases List.mem_cons.mp h' with h' | h'
      · subst h'
        exact List.mem_append_left _ (hspawn _ h)
      · exact List.mem_append_left _ (hpend _ h')
  | inlineEnhanced sid h =>
    refine ⟨rawBeforeEnhanced_append_enhanced _ _ (hinline _ h) hrbe,
      ?_, ?_, ?_⟩
    · intro sid' h'
      exact List.mem_append_left _ (hspawn _ h')
    · intro sid' h'
      exact List.mem_append_left _ (hinline _ (List.mem_of_mem_erase h'))
    · intro sid' h'
      exact List.mem_append_left _ (hpend _ h')
  | workerDone sid h =>
    refine ⟨rawBeforeEnhanced_append_enhanced _ _ (hpend _ h) hrbe,
      ?_, ?_, ?_⟩
    · intro sid' h'
      exact List.mem_append_left _ (hspawn _ h')
    · intro sid' h'
      exact List.mem_append_left _ (hinline _ h')
    · intro sid' h'
      exact List.mem_append_left _ (hpend _ (List.mem_of_mem_erase h'))

/-- The inductive invariant holds in every reachable protocol state. -/
theorem pipeInv_reach {s : PipeState} (h : PReach s) : PipeInv s := by
  induction h with
  | init =>
    refine ⟨?_, ?_, ?_, ?_⟩
    · intro sid j hj
      simp [initPipe] at hj
    · intro sid h'
      simp [initPipe] at h'
    · intro sid h'
      simp [initPipe] at h'
    · intro sid h'
      simp [initPipe] at h'
  | step _ st ih => exact pipeInv_step ih st

/-- C2: in every state reachable under arbitrary interleavings of the audio
callback's enqueue steps with concurrently completing enhancement workers,
every `Enhanced` event in the queue is preceded, strictly earlier in the
queue, by the `Raw` event of the same utterance. -/
theorem raw_always_precedes_enhanced (s : PipeState) (h : PReach s) :
    RawBeforeEnhanced s.queue :=
  (pipeInv_reach h).1

/-- Witness for C2: a concrete two-step run (gate-rejected utterance `0`:
`raw` put, then the inline duplicate `enhanced` put) reaches a state whose
queue satisfies the ordering property. -/
theorem raw_always_precedes_enhanced_witness :
    RawBeforeEnhanced [PEvent.raw 0, PEvent.enhanced 0] :=
  raw_always_precedes_enhanced
    ⟨[PEvent.raw 0, PEvent.enhanced 0], [], [], [], [0]⟩
    (PReach.step
      (PReach.step PReach.init (PStep.finalNoGate initPipe 0 (by simp [initPipe])))
      (PStep.inlineEnhanced ⟨[PEvent.raw 0], [], [0], [], [0]⟩ 0 (by simp)))

end VoiceApp
